import Mathlib

/-!
Verification of the four online estimators in `predictive_analysis.py`:
the exponential-moving-average forecaster, the scalar 1-D Kalman filter,
the harmonic-mean ETA predictor, and the time-decaying risk heatmap.

Python floats are modelled as `ℚ` where the claims are about exact
arithmetic on concrete data, and as `ℝ` where the claims are about
limits.  Mutation is modelled by explicit state passing; the wall clock
read inside `RiskHeatmap._apply_decay` is modelled by passing the
current time `now` as an argument.
-/

/-! ### ETA predictor (`ETAPredictor` in `predictive_analysis.py`)

`_speeds` is a `deque(maxlen=window)`, modelled as a list with the
oldest sample first; appending beyond capacity drops from the front,
which is exactly `deque.append`'s behaviour with a `maxlen`. -/

structure ETAPredictor where
  window : Nat
  speeds : List ℚ

/-- `__post_init__`: a fresh predictor with an empty speed history. -/
def ETAPredictor.init (window : Nat) : ETAPredictor :=
  { window := window, speeds := [] }

/-- `update_speed`: append `max(0.0, speed)`; the `deque(maxlen=window)`
drops the oldest entries so that at most `window` remain. -/
def ETAPredictor.update_speed (p : ETAPredictor) (speed_mps : ℚ) : ETAPredictor :=
  { p with speeds := (p.speeds ++ [max 0 speed_mps]).drop (p.speeds.length + 1 - p.window) }

/-- Fold `update_speed` over a list of incoming speed samples. -/
def ETAPredictor.runSpeeds (p : ETAPredictor) (vs : List ℚ) : ETAPredictor :=
  vs.foldl ETAPredictor.update_speed p

/-- `estimate_eta_seconds`: harmonic mean of the strictly positive
retained speeds, clamped below by `min_speed`; `min_speed` is used
directly when the history is empty or has no positive sample. -/
def ETAPredictor.estimate_eta_seconds (p : ETAPredictor)
    (remaining_distance_m min_speed : ℚ) : ℚ :=
  let v :=
    if p.speeds.isEmpty then min_speed
    else
      let valid_speeds := p.speeds.filter (fun s => decide (0 < s))
      if valid_speeds.isEmpty then min_speed
      else
        let inv := valid_speeds.map (fun s => 1 / s)
        max ((valid_speeds.length : ℚ) / inv.sum) min_speed
  remaining_distance_m / v

/-- Modelled from the spec: the effective speed `v` described in
"COMPONENT DESIGN 4.3" — `min_speed` when no retained sample is
strictly positive, otherwise the harmonic mean of the positive subset
clamped below by `min_speed`.  Used to compare the code's
`estimate_eta_seconds` against the spec's description. -/
def etaSpeedSpec (speeds : List ℚ) (min_speed : ℚ) : ℚ :=
  let pos := speeds.filter (fun s => decide (0 < s))
  if pos.isEmpty then min_speed
  else max ((pos.length : ℚ) / (pos.map (fun s => 1 / s)).sum) min_speed

lemma ETAPredictor.runSpeeds_window (p : ETAPredictor) (vs : List ℚ) :
    (p.runSpeeds vs).window = p.window := by
  induction vs generalizing p with
  | nil => rfl
  | cons v vs ih => simpa [ETAPredictor.runSpeeds, ETAPredictor.update_speed] using ih _

lemma ETAPredictor.runSpeeds_append (p : ETAPredictor) (vs : List ℚ) (v : ℚ) :
    p.runSpeeds (vs ++ [v]) = (p.runSpeeds vs).update_speed v := by
  simp [ETAPredictor.runSpeeds, List.foldl_append]

lemma drop_fifo_step {α : Type} (L : List α) (a : α) (w : Nat) :
    ((L.drop (L.length - w)) ++ [a]).drop ((L.drop (L.length - w)).length + 1 - w)
      = (L ++ [a]).drop (L.length + 1 - w) := by
  rcases le_or_lt L.length w with h | h
  · have h0 : L.length - w = 0 := by omega
    simp [h0]
  · have hlen : (L.drop (L.length - w)).length = w := by
      rw [List.length_drop]; omega
    rw [hlen]
    have h1 : w + 1 - w = 1 := by omega
    rw [h1]
    cases w with
    | zero =>
      have hL : L.length - 0 = L.length := by omega
      simp [hL, List.drop_eq_nil_of_le]
    | succ w0 =>
      rw [List.drop_append_of_le_length (by rw [hlen]; omega),
          List.drop_append_of_le_length (by omega), List.drop_drop]
      have h2 : L.length - (w0 + 1) + 1 = L.length + 1 - (w0 + 1) := by omega
      rw [h2]

lemma runSpeeds_init_speeds (w : Nat) (vs : List ℚ) :
    ((ETAPredictor.init w).runSpeeds vs).speeds
      = (vs.map (fun v => max 0 v)).drop (vs.length - w) := by
  induction vs using List.reverseRecOn with
  | nil => simp [ETAPredictor.runSpeeds, ETAPredictor.init]
  | append_singleton vs v ih =>
    rw [ETAPredictor.runSpeeds_append, ETAPredictor.update_speed, ih,
        ETAPredictor.runSpeeds_window]
    have hmap : (vs ++ [v]).map (fun x => max 0 x)
        = vs.map (fun x => max 0 x) ++ [max 0 v] := by simp
    have hlen : ((vs ++ [v]).length) = (vs.map (fun x => max 0 x)).length + 1 := by simp
    rw [hmap, hlen]
    have := drop_fifo_step (vs.map (fun x => max 0 x)) (max 0 v) w
    simpa [ETAPredictor.init] using this

/-- Claim C8: `update_speed` stores `max(0, speed)` into a FIFO whose length
never exceeds `window`, evicting the oldest sample when full: after any input
sequence the retained history is exactly the last `window` clamped inputs, and
with `window = 2` the inputs `1, 2, 3` leave exactly `[2, 3]`. -/
theorem eta_update_speed_fifo :
    (∀ (w : Nat) (vs : List ℚ),
        ((ETAPredictor.init w).runSpeeds vs).speeds
          = (vs.map (fun v => max 0 v)).drop (vs.length - w)
        ∧ ((ETAPredictor.init w).runSpeeds vs).speeds.length ≤ w)
    ∧ ((ETAPredictor.init 2).runSpeeds [1, 2, 3]).speeds = [2, 3] := by
  refine ⟨fun w vs => ⟨runSpeeds_init_speeds w vs, ?_⟩, by decide⟩
  rw [runSpeeds_init_speeds, List.length_drop, List.length_map]
  omega

/-- Claim C1: `estimate_eta_seconds` returns `remaining_distance / v` where
`v` is `min_speed` if no retained sample is strictly positive, and otherwise
the harmonic mean of the strictly positive samples clamped below by
`min_speed`; with retained speeds `[2, 8]` the harmonic mean is `3.2` and the
ETA for distance `32` is `10` seconds. -/
theorem eta_estimate_matches_spec :
    (∀ (p : ETAPredictor) (d m : ℚ),
        p.estimate_eta_seconds d m = d / etaSpeedSpec p.speeds m)
    ∧ etaSpeedSpec [2, 8] (1/20) = 16/5
    ∧ (ETAPredictor.mk 30 [2, 8]).estimate_eta_seconds 32 (1/20) = 10 := by
  refine ⟨fun p d m => ?_, ?_, ?_⟩
  pick_goal 2
  · norm_num [etaSpeedSpec, List.filter_cons, max_def]
  pick_goal 2
  · norm_num [ETAPredictor.estimate_eta_seconds, List.filter_cons, max_def]
  unfold ETAPredictor.estimate_eta_seconds etaSpeedSpec
  cases hsp : p.speeds with
  | nil => simp
  | cons a l => simp

/-! ### Risk heatmap (`RiskHeatmap` in `predictive_analysis.py`)

The grid is modelled as a total function `ℤ → ℤ → ℚ`; the Python list of
lists only holds indices `0 ≤ r < rows`, `0 ≤ c < cols`, and both the
decay sweep (`for r in range(self.rows)`) and the reinforcement guard
(`0 <= r < self.rows and 0 <= c < self.cols`) touch exactly those
indices, so out-of-range positions of the function stay at their initial
`0` forever.  `time.time()` is modelled by an explicit `now` argument at
each access.  All operations are total functions: no exception is ever
raised. -/

structure RiskHeatmap where
  rows : Int
  cols : Int
  decay_per_sec : ℚ
  grid : Int → Int → ℚ
  last_ts : ℚ

/-- `__post_init__`: zero grid, `last_ts` set to the current time. -/
def RiskHeatmap.init (rows cols : Int) (decay_per_sec : ℚ) (now : ℚ) : RiskHeatmap :=
  { rows := rows, cols := cols, decay_per_sec := decay_per_sec,
    grid := fun _ _ => 0, last_ts := now }

/-- The bounds check `0 <= r < self.rows and 0 <= c < self.cols`. -/
def RiskHeatmap.inRange (h : RiskHeatmap) (r c : Int) : Prop :=
  0 ≤ r ∧ r < h.rows ∧ 0 ≤ c ∧ c < h.cols

instance (h : RiskHeatmap) (r c : Int) : Decidable (h.inRange r c) :=
  inferInstanceAs (Decidable (0 ≤ r ∧ r < h.rows ∧ 0 ≤ c ∧ c < h.cols))

/-- `_apply_decay`: `dt = max(0, now - last_ts)`; `last_ts = now`; if
`dt > 0`, every cell is multiplied by `max(0, 1 - decay_per_sec*dt)`. -/
def RiskHeatmap.applyDecay (h : RiskHeatmap) (now : ℚ) : RiskHeatmap :=
  let dt := max 0 (now - h.last_ts)
  if dt ≤ 0 then { h with last_ts := now }
  else
    let decay_factor := max 0 (1 - h.decay_per_sec * dt)
    { h with last_ts := now,
             grid := fun r c =>
               if h.inRange r c then h.grid r c * decay_factor else h.grid r c }

/-- One step of the reinforcement loop body: add `amount` at cell `rc`
when it is in range, else leave the grid unchanged. -/
def RiskHeatmap.addCell (h : RiskHeatmap) (amount : ℚ) (g : Int → Int → ℚ)
    (rc : Int × Int) : Int → Int → ℚ :=
  if h.inRange rc.1 rc.2 then
    fun r c => if r = rc.1 ∧ c = rc.2 then g r c + amount else g r c
  else g

/-- `reinforce`: apply decay first, then add `amount` at every listed
in-range cell (out-of-range cells are skipped by the bounds check). -/
def RiskHeatmap.reinforce (h : RiskHeatmap) (now : ℚ) (cells : List (Int × Int))
    (amount : ℚ) : RiskHeatmap :=
  let h1 := h.applyDecay now
  { h1 with grid := cells.foldl (h1.addCell amount) h1.grid }

/-- `get`: apply decay first, then return the grid (paired with the
post-decay state, since the Python method also mutates `self`). -/
def RiskHeatmap.get (h : RiskHeatmap) (now : ℚ) : RiskHeatmap × (Int → Int → ℚ) :=
  let h1 := h.applyDecay now
  (h1, h1.grid)

/-- A heatmap access, used to state invariants over arbitrary
interleavings of `reinforce` and `get` with arbitrary clock values. -/
inductive HeatmapOp where
  | reinforceOp (now : ℚ) (cells : List (Int × Int)) (amount : ℚ)
  | getOp (now : ℚ)

def RiskHeatmap.step (h : RiskHeatmap) : HeatmapOp → RiskHeatmap
  | .reinforceOp now cells amount => h.reinforce now cells amount
  | .getOp now => (h.get now).1

def RiskHeatmap.runOps (h : RiskHeatmap) (ops : List HeatmapOp) : RiskHeatmap :=
  ops.foldl RiskHeatmap.step h

/-- An op whose reinforcement amount (if any) is non-negative. -/
def HeatmapOp.nonnegAmount : HeatmapOp → Prop
  | .reinforceOp _ _ amount => 0 ≤ amount
  | .getOp _ => True

instance (op : HeatmapOp) : Decidable op.nonnegAmount :=
  match op with
  | .reinforceOp _ _ amount => inferInstanceAs (Decidable (0 ≤ amount))
  | .getOp _ => inferInstanceAs (Decidable True)

lemma RiskHeatmap.applyDecay_rows (h : RiskHeatmap) (now : ℚ) :
    (h.applyDecay now).rows = h.rows := by
  simp only [RiskHeatmap.applyDecay]; split <;> rfl

lemma RiskHeatmap.applyDecay_cols (h : RiskHeatmap) (now : ℚ) :
    (h.applyDecay now).cols = h.cols := by
  simp only [RiskHeatmap.applyDecay]; split <;> rfl

lemma RiskHeatmap.applyDecay_last_ts (h : RiskHeatmap) (now : ℚ) :
    (h.applyDecay now).last_ts = now := by
  simp only [RiskHeatmap.applyDecay]; split <;> rfl

lemma RiskHeatmap.applyDecay_inRange (h : RiskHeatmap) (now : ℚ) (r c : Int) :
    (h.applyDecay now).inRange r c ↔ h.inRange r c := by
  unfold RiskHeatmap.inRange
  rw [RiskHeatmap.applyDecay_rows, RiskHeatmap.applyDecay_cols]

/-- When no time has elapsed (or the clock moved backward), the decay
sweep leaves the grid untouched. -/
lemma RiskHeatmap.applyDecay_grid_of_le (h : RiskHeatmap) (now : ℚ)
    (hle : now ≤ h.last_ts) : (h.applyDecay now).grid = h.grid := by
  simp only [RiskHeatmap.applyDecay]
  have hdt : max 0 (now - h.last_ts) ≤ 0 := by
    rw [max_le_iff]; constructor <;> linarith
  rw [if_pos hdt]

/-- When time has elapsed, every in-range cell is multiplied by the
clamped decay factor. -/
lemma RiskHeatmap.applyDecay_grid_of_pos (h : RiskHeatmap) (now : ℚ)
    (hdt : 0 < max 0 (now - h.last_ts)) (r c : Int) (hin : h.inRange r c) :
    (h.applyDecay now).grid r c
      = h.grid r c * max 0 (1 - h.decay_per_sec * max 0 (now - h.last_ts)) := by
  simp only [RiskHeatmap.applyDecay]
  rw [if_neg (by linarith)]
  exact if_pos hin

lemma RiskHeatmap.foldl_addCell_not_inRange (h1 : RiskHeatmap) (amount : ℚ)
    (cells : List (Int × Int)) (g : Int → Int → ℚ) (r c : Int)
    (hout : ¬ h1.inRange r c) :
    (cells.foldl (h1.addCell amount) g) r c = g r c := by
  induction cells generalizing g with
  | nil => rfl
  | cons rc cells ih =>
    rw [List.foldl_cons, ih]
    unfold RiskHeatmap.addCell
    split
    · rename_i hrc
      by_cases heq : r = rc.1 ∧ c = rc.2
      · exact absurd (by rw [heq.1, heq.2] at hout; exact hout) (not_not_intro hrc)
      · exact if_neg heq
    · rfl

lemma RiskHeatmap.foldl_addCell_count (h1 : RiskHeatmap) (amount : ℚ)
    (cells : List (Int × Int)) (g : Int → Int → ℚ) (r c : Int)
    (hin : h1.inRange r c) :
    (cells.foldl (h1.addCell amount) g) r c
      = g r c + (cells.count (r, c) : ℚ) * amount := by
  induction cells generalizing g with
  | nil => simp
  | cons rc cells ih =>
    obtain ⟨i, j⟩ := rc
    rw [List.foldl_cons, ih, List.count_cons]
    by_cases heq : (r, c) = (i, j)
    · rw [Prod.mk.injEq] at heq
      obtain ⟨hr, hc⟩ := heq
      subst hr
      subst hc
      simp only [RiskHeatmap.addCell]
      rw [if_pos hin, if_pos ⟨rfl, rfl⟩]
      simp only [beq_self_eq_true, if_true]
      push_cast
      ring
    · have hne : ¬ (r = i ∧ c = j) := by
        rw [Prod.mk.injEq] at heq
        exact heq
      have hbeq : (((i, j) : Int × Int) == (r, c)) = false := by
        simp only [beq_eq_false_iff_ne, ne_eq]
        exact fun hh => heq hh.symm
      have haddc : (h1.addCell amount g (i, j)) r c = g r c := by
        simp only [RiskHeatmap.addCell]
        split
        · exact if_neg hne
        · rfl
      rw [haddc, hbeq]
      simp

lemma RiskHeatmap.foldl_addCell_all_out (h1 : RiskHeatmap) (amount : ℚ)
    (cells : List (Int × Int)) (g : Int → Int → ℚ)
    (hall : ∀ rc ∈ cells, ¬ h1.inRange rc.1 rc.2) :
    cells.foldl (h1.addCell amount) g = g := by
  induction cells generalizing g with
  | nil => rfl
  | cons rc cells ih =>
    rw [List.foldl_cons]
    have hrc : h1.addCell amount g rc = g := by
      unfold RiskHeatmap.addCell
      exact if_neg (hall rc (List.mem_cons_self rc cells))
    rw [hrc]
    exact ih g (fun x hx => hall x (List.mem_cons_of_mem rc hx))

lemma RiskHeatmap.applyDecay_grid_nonneg (h : RiskHeatmap) (now : ℚ)
    (hg : ∀ r c, 0 ≤ h.grid r c) : ∀ r c, 0 ≤ (h.applyDecay now).grid r c := by
  intro r c
  simp only [RiskHeatmap.applyDecay]
  split
  · exact hg r c
  · dsimp only
    split
    · exact mul_nonneg (hg r c) (le_max_left 0 _)
    · exact hg r c

lemma RiskHeatmap.foldl_addCell_nonneg (h1 : RiskHeatmap) (amount : ℚ)
    (ham : 0 ≤ amount) (cells : List (Int × Int)) (g : Int → Int → ℚ)
    (hg : ∀ r c, 0 ≤ g r c) :
    ∀ r c, 0 ≤ (cells.foldl (h1.addCell amount) g) r c := by
  induction cells generalizing g with
  | nil => exact hg
  | cons rc cells ih =>
    rw [List.foldl_cons]
    refine ih _ (fun r c => ?_)
    unfold RiskHeatmap.addCell
    split
    · dsimp only
      split
      · exact add_nonneg (hg r c) ham
      · exact hg r c
    · exact hg r c

lemma RiskHeatmap.step_grid_nonneg (h : RiskHeatmap) (op : HeatmapOp)
    (hop : op.nonnegAmount) (hg : ∀ r c, 0 ≤ h.grid r c) :
    ∀ r c, 0 ≤ (h.step op).grid r c := by
  cases op with
  | reinforceOp now cells amount =>
    exact RiskHeatmap.foldl_addCell_nonneg _ amount hop cells _
      (RiskHeatmap.applyDecay_grid_nonneg h now hg)
  | getOp now =>
    exact RiskHeatmap.applyDecay_grid_nonneg h now hg

lemma RiskHeatmap.runOps_grid_nonneg (h : RiskHeatmap) (ops : List HeatmapOp)
    (hops : ∀ op ∈ ops, op.nonnegAmount) (hg : ∀ r c, 0 ≤ h.grid r c) :
    ∀ r c, 0 ≤ (h.runOps ops).grid r c := by
  induction ops generalizing h with
  | nil => exact hg
  | cons op ops ih =>
    exact ih _ (fun x hx => hops x (List.mem_cons_of_mem op hx))
      (RiskHeatmap.step_grid_nonneg h op (hops op (List.mem_cons_self op ops)) hg)

/-- Claim C2: every access (`reinforce` or `get`) first applies decay:
`last_ts` becomes `now`, and with `dt = max(0, now - last_ts)` positive,
every grid cell is multiplied by `max(0, 1 - decay_per_sec*dt)`; whenever
`decay_per_sec*dt >= 1` every cell becomes exactly zero in that single
step. -/
theorem heatmap_decay_semantics :
    ∀ (h : RiskHeatmap) (now : ℚ),
      (h.applyDecay now).last_ts = now
      ∧ (∀ (cells : List (Int × Int)) (amount : ℚ),
          (h.reinforce now cells amount).grid
            = cells.foldl ((h.applyDecay now).addCell amount) (h.applyDecay now).grid)
      ∧ (h.get now).2 = (h.applyDecay now).grid
      ∧ (0 < max 0 (now - h.last_ts) → ∀ (r c : Int), h.inRange r c →
          (h.applyDecay now).grid r c
            = h.grid r c * max 0 (1 - h.decay_per_sec * max 0 (now - h.last_ts)))
      ∧ (1 ≤ h.decay_per_sec * max 0 (now - h.last_ts) →
          ∀ (r c : Int), h.inRange r c → (h.applyDecay now).grid r c = 0) := by
  intro h now
  refine ⟨RiskHeatmap.applyDecay_last_ts h now, fun cells amount => rfl, rfl,
    RiskHeatmap.applyDecay_grid_of_pos h now, fun hone r c hin => ?_⟩
  have hdt0 : (0 : ℚ) ≤ max 0 (now - h.last_ts) := le_max_left _ _
  rcases eq_or_lt_of_le hdt0 with heq | hlt
  · rw [← heq, mul_zero] at hone
    norm_num at hone
  · rw [RiskHeatmap.applyDecay_grid_of_pos h now hlt r c hin]
    have hfac : max 0 (1 - h.decay_per_sec * max 0 (now - h.last_ts)) = 0 :=
      max_eq_left (by linarith)
    rw [hfac, mul_zero]

/-- Witness for C2: a 3x3 grid with decay rate `0.1`, reinforced by `5`
at `(1,1)`, read back after `10` seconds (`decay_per_sec*dt = 1`): the
reinforced cell is exactly zero. -/
theorem heatmap_decay_semantics_w :
    (1 ≤ ((RiskHeatmap.init 3 3 (1/10) 0).reinforce 0 [(1, 1)] 5).decay_per_sec
          * max 0 (10 - ((RiskHeatmap.init 3 3 (1/10) 0).reinforce 0 [(1, 1)] 5).last_ts))
    ∧ ((RiskHeatmap.init 3 3 (1/10) 0).reinforce 0 [(1, 1)] 5).inRange 1 1
    ∧ (((RiskHeatmap.init 3 3 (1/10) 0).reinforce 0 [(1, 1)] 5).applyDecay 10).grid 1 1
        = 0 := by
  have h1 : (1 : ℚ) ≤ ((RiskHeatmap.init 3 3 (1/10) 0).reinforce 0 [(1, 1)] 5).decay_per_sec
      * max 0 (10 - ((RiskHeatmap.init 3 3 (1/10) 0).reinforce 0 [(1, 1)] 5).last_ts) := by
    norm_num [RiskHeatmap.reinforce, RiskHeatmap.applyDecay, RiskHeatmap.init]
  have h2 : ((RiskHeatmap.init 3 3 (1/10) 0).reinforce 0 [(1, 1)] 5).inRange 1 1 := by
    norm_num [RiskHeatmap.reinforce, RiskHeatmap.applyDecay, RiskHeatmap.init,
      RiskHeatmap.inRange]
  exact ⟨h1, h2,
    (heatmap_decay_semantics ((RiskHeatmap.init 3 3 (1/10) 0).reinforce 0 [(1, 1)] 5)
      10).2.2.2.2 h1 1 1 h2⟩

/-- Claim C9: `reinforce` silently ignores out-of-range cells: it is a
total function, cells that are out of range or unlisted keep their
decayed value, a call whose cells are all out of range leaves the whole
grid at its decayed-only value, and when no time has elapsed the decay
step itself changes nothing. -/
theorem heatmap_reinforce_out_of_range :
    ∀ (h : RiskHeatmap) (now : ℚ) (cells : List (Int × Int)) (amount : ℚ),
      (∀ r c : Int, ¬ h.inRange r c →
          (h.reinforce now cells amount).grid r c = (h.applyDecay now).grid r c)
      ∧ (∀ r c : Int, (r, c) ∉ cells →
          (h.reinforce now cells amount).grid r c = (h.applyDecay now).grid r c)
      ∧ ((∀ rc ∈ cells, ¬ h.inRange rc.1 rc.2) →
          (h.reinforce now cells amount).grid = (h.applyDecay now).grid)
      ∧ (now ≤ h.last_ts → (h.applyDecay now).grid = h.grid) := by
  intro h now cells amount
  refine ⟨fun r c hout => ?_, fun r c hnm => ?_, fun hall => ?_,
    RiskHeatmap.applyDecay_grid_of_le h now⟩
  · exact RiskHeatmap.foldl_addCell_not_inRange _ amount cells _ r c
      (fun hc => hout ((RiskHeatmap.applyDecay_inRange h now r c).mp hc))
  · by_cases hin : (h.applyDecay now).inRange r c
    · rw [show (h.reinforce now cells amount).grid
          = cells.foldl ((h.applyDecay now).addCell amount) (h.applyDecay now).grid from rfl,
        RiskHeatmap.foldl_addCell_count _ amount cells _ r c hin,
        List.count_eq_zero_of_not_mem hnm]
      simp
    · exact RiskHeatmap.foldl_addCell_not_inRange _ amount cells _ r c hin
  · exact RiskHeatmap.foldl_addCell_all_out _ amount cells _
      (fun rc hrc hc =>
        hall rc hrc ((RiskHeatmap.applyDecay_inRange h now rc.1 rc.2).mp hc))

/-- Witness for C9: `reinforce([(99,99)])` on a fresh 3x3 grid with no
elapsed time leaves the cell `(1,1)` (and the whole grid) unchanged. -/
theorem heatmap_reinforce_out_of_range_w :
    (∀ rc ∈ [((99 : Int), (99 : Int))],
        ¬ (RiskHeatmap.init 3 3 (1/10) 0).inRange rc.1 rc.2)
    ∧ ((0 : ℚ) ≤ (RiskHeatmap.init 3 3 (1/10) 0).last_ts)
    ∧ ((RiskHeatmap.init 3 3 (1/10) 0).reinforce 0 [(99, 99)] 5).grid
        = (RiskHeatmap.init 3 3 (1/10) 0).grid := by
  have hall : ∀ rc ∈ [((99 : Int), (99 : Int))],
      ¬ (RiskHeatmap.init 3 3 (1/10) 0).inRange rc.1 rc.2 := by
    intro rc hrc
    simp only [List.mem_singleton] at hrc
    subst hrc
    norm_num [RiskHeatmap.init, RiskHeatmap.inRange]
  have hle : (0 : ℚ) ≤ (RiskHeatmap.init 3 3 (1/10) 0).last_ts := le_refl 0
  refine ⟨hall, hle, ?_⟩
  rw [(heatmap_reinforce_out_of_range (RiskHeatmap.init 3 3 (1/10) 0) 0
        [(99, 99)] 5).2.2.1 hall,
      (heatmap_reinforce_out_of_range (RiskHeatmap.init 3 3 (1/10) 0) 0
        [(99, 99)] 5).2.2.2 hle]

/-- Claim C10: a single `reinforce` call adds `amount` once per
occurrence of an in-range coordinate in its `cells` argument, so a cell
listed `k` times gains `k * amount`. -/
theorem heatmap_reinforce_duplicate_cells :
    ∀ (h : RiskHeatmap) (now : ℚ) (cells : List (Int × Int)) (amount : ℚ)
      (r c : Int), h.inRange r c →
      (h.reinforce now cells amount).grid r c
        = (h.applyDecay now).grid r c + (cells.count (r, c) : ℚ) * amount := by
  intro h now cells amount r c hin
  exact RiskHeatmap.foldl_addCell_count _ amount cells _ r c
    ((RiskHeatmap.applyDecay_inRange h now r c).mpr hin)

/-- Witness for C10: reinforcing `(1,1)` three times in one call on a
fresh 3x3 grid adds `3 * 2` to that cell. -/
theorem heatmap_reinforce_duplicate_cells_w :
    (RiskHeatmap.init 3 3 (1/10) 0).inRange 1 1
    ∧ ((RiskHeatmap.init 3 3 (1/10) 0).reinforce 0 [(1, 1), (1, 1), (1, 1)] 2).grid 1 1
        = ((RiskHeatmap.init 3 3 (1/10) 0).applyDecay 0).grid 1 1
          + (([((1 : Int), (1 : Int)), (1, 1), (1, 1)].count ((1 : Int), (1 : Int)) : ℚ)) * 2 := by
  have hin : (RiskHeatmap.init 3 3 (1/10) 0).inRange 1 1 := by
    norm_num [RiskHeatmap.init, RiskHeatmap.inRange]
  exact ⟨hin,
    heatmap_reinforce_duplicate_cells (RiskHeatmap.init 3 3 (1/10) 0) 0
      [(1, 1), (1, 1), (1, 1)] 2 1 1 hin⟩

/-- Claim C4 (amended): starting from the all-zero grid, every
interleaving of `reinforce` and `get` calls whose reinforcement amounts
are non-negative — cells and clock readings arbitrary — leaves every
cell `≥ 0`.  (The unrestricted claim fails: `reinforce` adds its
`amount` argument unclamped, so a negative amount drives a cell
negative; see the counterexample.) -/
theorem heatmap_cells_nonneg :
    ∀ (rows cols : Int) (decay t0 : ℚ) (ops : List HeatmapOp),
      (∀ op ∈ ops, op.nonnegAmount) →
      ∀ r c : Int, 0 ≤ ((RiskHeatmap.init rows cols decay t0).runOps ops).grid r c := by
  intro rows cols decay t0 ops hops
  exact RiskHeatmap.runOps_grid_nonneg _ ops hops (fun r c => le_refl 0)

/-- Witness for C4: a reinforce followed by a get, with positive amount
and advancing clock, keeps the reinforced cell non-negative. -/
theorem heatmap_cells_nonneg_w :
    (∀ op ∈ [HeatmapOp.reinforceOp 0 [(1, 1)] 5, HeatmapOp.getOp 2],
        op.nonnegAmount)
    ∧ (0 : ℚ) ≤ ((RiskHeatmap.init 3 3 (1/10) 0).runOps
        [HeatmapOp.reinforceOp 0 [(1, 1)] 5, HeatmapOp.getOp 2]).grid 1 1 := by
  have hops : ∀ op ∈ [HeatmapOp.reinforceOp 0 [(1, 1)] 5, HeatmapOp.getOp 2],
      op.nonnegAmount := by
    intro op hop
    simp only [List.mem_cons, List.not_mem_nil, or_false] at hop
    rcases hop with rfl | rfl
    · norm_num [HeatmapOp.nonnegAmount]
    · trivial
  exact ⟨hops, heatmap_cells_nonneg 3 3 (1/10) 0 _ hops 1 1⟩

/-- Counterexample for C4 as stated: with arbitrary arguments allowed, a
single `reinforce` with `amount = -1` at the in-range cell `(0,0)` of a
fresh 3x3 grid leaves that cell strictly negative. -/
theorem heatmap_cells_nonneg_cex :
    ((RiskHeatmap.init 3 3 (1/100) 0).runOps
        [HeatmapOp.reinforceOp 0 [(0, 0)] (-1)]).grid 0 0 < 0 := by
  norm_num [RiskHeatmap.runOps, RiskHeatmap.step, RiskHeatmap.reinforce,
    RiskHeatmap.applyDecay, RiskHeatmap.addCell, RiskHeatmap.init,
    RiskHeatmap.inRange]

/-! ### EMA forecaster (`EMAForecaster` in `predictive_analysis.py`)

`_level` is nullable (`None` until the first observation); `update`
returns the new level, `predict` raises `ValueError` ("No data yet") —
the spec's `NotInitialized` error — when no observation has been fed.
Modelled over `ℝ` because claim C5 is about convergence.  `predict` is a
pure function of the state (the Python method reads `self._level` and
mutates nothing), so freedom from side effects is structural. -/

structure EMAForecaster where
  alpha : ℝ
  level : Option ℝ

/-- A fresh forecaster: no observation yet. -/
def EMAForecaster.init (alpha : ℝ) : EMAForecaster :=
  { alpha := alpha, level := none }

/-- `update`: first call stores the raw value; later calls blend
`alpha*value + (1-alpha)*level`.  Returns the new state and the value
the Python method returns. -/
def EMAForecaster.update (f : EMAForecaster) (value : ℝ) : EMAForecaster × ℝ :=
  match f.level with
  | none => ({ f with level := some value }, value)
  | some l =>
    let l2 := f.alpha * value + (1 - f.alpha) * l
    ({ f with level := some l2 }, l2)

/-- The error raised by `predict` on a fresh forecaster. -/
inductive EMAError where
  | notInitialized
deriving DecidableEq

/-- `predict`: the flat forecast — the current level for any horizon
`steps`, or the `NotInitialized` error when there is no level yet. -/
def EMAForecaster.predict (f : EMAForecaster) (steps : Int) : Except EMAError ℝ :=
  match f.level with
  | none => Except.error EMAError.notInitialized
  | some l => Except.ok l

/-- Fold `update` over a list of observations. -/
def EMAForecaster.runUpdates (f : EMAForecaster) (vs : List ℝ) : EMAForecaster :=
  vs.foldl (fun s v => (s.update v).1) f

/-- The level sequence produced by feeding the constant input `c` to
`update`, starting from an already-initialized level `startLevel`. -/
def emaLevels (alpha startLevel c : ℝ) : Nat → ℝ
  | 0 => startLevel
  | n + 1 => ((EMAForecaster.mk alpha (some (emaLevels alpha startLevel c n))).update c).2

lemma EMAForecaster.update_level_isSome (f : EMAForecaster) (v : ℝ) :
    ((f.update v).1).level.isSome := by
  unfold EMAForecaster.update
  cases f.level <;> rfl

lemma EMAForecaster.runUpdates_level_isSome (f : EMAForecaster) (vs : List ℝ)
    (h : f.level.isSome ∨ vs ≠ []) : (f.runUpdates vs).level.isSome := by
  induction vs generalizing f with
  | nil =>
    rcases h with h | h
    · exact h
    · exact absurd rfl h
  | cons v vs ih =>
    exact ih (f.update v).1 (Or.inl (EMAForecaster.update_level_isSome f v))

/-- Claim C6: `predict` fails with the `NotInitialized` error exactly
when `update` has never been called; after at least one update it
returns the current level for every value of `steps`.  (`predict` is a
pure function of the state, so it has no side effect by construction.) -/
theorem ema_predict_iff_uninitialized :
    ∀ (alpha : ℝ) (vs : List ℝ) (steps : Int),
      (((EMAForecaster.init alpha).runUpdates vs).predict steps
          = Except.error EMAError.notInitialized ↔ vs = [])
      ∧ (vs ≠ [] → ∃ l, ((EMAForecaster.init alpha).runUpdates vs).level = some l
          ∧ ∀ steps2 : Int,
              ((EMAForecaster.init alpha).runUpdates vs).predict steps2
                = Except.ok l) := by
  intro alpha vs steps
  have hsome : vs ≠ [] → ∃ l, ((EMAForecaster.init alpha).runUpdates vs).level = some l := by
    intro hne
    have := EMAForecaster.runUpdates_level_isSome (EMAForecaster.init alpha) vs (Or.inr hne)
    exact Option.isSome_iff_exists.mp this
  constructor
  · constructor
    · intro herr
      by_contra hne
      obtain ⟨l, hl⟩ := hsome hne
      rw [EMAForecaster.predict, hl] at herr
      exact Except.noConfusion herr
    · intro hnil
      subst hnil
      rfl
  · intro hne
    obtain ⟨l, hl⟩ := hsome hne
    exact ⟨l, hl, fun steps2 => by rw [EMAForecaster.predict, hl]⟩

/-- Witness for C6: after the single update `3`, `predict` returns `3`
for the horizon `7`. -/
theorem ema_predict_iff_uninitialized_w :
    (([3] : List ℝ) ≠ [])
    ∧ ∃ l, ((EMAForecaster.init (1/2)).runUpdates [3]).level = some l
        ∧ ∀ steps2 : Int,
            ((EMAForecaster.init (1/2)).runUpdates [3]).predict steps2 = Except.ok l := by
  have hne : ([3] : List ℝ) ≠ [] := by simp
  exact ⟨hne, (ema_predict_iff_uninitialized (1/2) [3] 0).2 hne⟩

lemma emaLevels_closed_form (alpha startLevel c : ℝ) (n : Nat) :
    emaLevels alpha startLevel c n = c + (1 - alpha) ^ n * (startLevel - c) := by
  induction n with
  | zero => simp [emaLevels]
  | succ n ih =>
    rw [emaLevels, EMAForecaster.update]
    dsimp only
    rw [ih]
    ring

lemma emaLevels_succ_sub (alpha startLevel c : ℝ) (n : Nat) :
    emaLevels alpha startLevel c (n + 1) - emaLevels alpha startLevel c n
      = (1 - alpha) ^ n * (-alpha) * (startLevel - c) := by
  rw [emaLevels_closed_form, emaLevels_closed_form]
  ring

/-- Claim C5 (amended): for `alpha` in `(0,1)` and constant input `c`,
the EMA level always converges to `c`; when the starting level differs
from `c` the approach is strictly monotonic and never overshoots (it
stays strictly on the starting side of `c`); when the starting level
already equals `c` the level stays constant at `c` (so the approach is
not strictly monotonic in that boundary case). -/
theorem ema_constant_input_convergence :
    ∀ (alpha c startLevel : ℝ), 0 < alpha → alpha < 1 →
      Filter.Tendsto (emaLevels alpha startLevel c) Filter.atTop (nhds c)
      ∧ (startLevel < c → StrictMono (emaLevels alpha startLevel c)
          ∧ ∀ n, emaLevels alpha startLevel c n < c)
      ∧ (c < startLevel → StrictAnti (emaLevels alpha startLevel c)
          ∧ ∀ n, c < emaLevels alpha startLevel c n)
      ∧ (startLevel = c → ∀ n, emaLevels alpha startLevel c n = c) := by
  intro alpha c startLevel ha0 ha1
  have hb0 : (0 : ℝ) ≤ 1 - alpha := by linarith
  have hb1 : 1 - alpha < 1 := by linarith
  have hbpos : ∀ n : Nat, 0 < (1 - alpha) ^ n := by
    intro n
    exact pow_pos (by linarith) n
  refine ⟨?_, fun hlt => ⟨?_, ?_⟩, fun hgt => ⟨?_, ?_⟩, fun heq n => ?_⟩
  · have hpow : Filter.Tendsto (fun n : Nat => (1 - alpha) ^ n)
        Filter.atTop (nhds 0) :=
      tendsto_pow_atTop_nhds_zero_of_lt_one hb0 hb1
    have hmul : Filter.Tendsto (fun n : Nat => (1 - alpha) ^ n * (startLevel - c))
        Filter.atTop (nhds (0 * (startLevel - c))) := hpow.mul_const _
    rw [zero_mul] at hmul
    have hadd : Filter.Tendsto (fun n : Nat => c + (1 - alpha) ^ n * (startLevel - c))
        Filter.atTop (nhds (c + 0)) := hmul.const_add c
    rw [add_zero] at hadd
    exact hadd.congr (fun n => (emaLevels_closed_form alpha startLevel c n).symm)
  · refine strictMono_nat_of_lt_succ (fun n => ?_)
    have hdiff := emaLevels_succ_sub alpha startLevel c n
    nlinarith [mul_pos (mul_pos (hbpos n) ha0) (sub_pos.mpr hlt)]
  · intro n
    rw [emaLevels_closed_form]
    nlinarith [hbpos n]
  · refine strictAnti_nat_of_succ_lt (fun n => ?_)
    have hdiff := emaLevels_succ_sub alpha startLevel c n
    nlinarith [mul_pos (mul_pos (hbpos n) ha0) (sub_pos.mpr hgt)]
  · intro n
    rw [emaLevels_closed_form]
    nlinarith [hbpos n]
  · rw [emaLevels_closed_form, heq]
    ring

/-- Witness for C5: `alpha = 1/2`, constant input `1`, starting level
`0`: the level tends to `1`, increases strictly, and stays below `1`. -/
theorem ema_constant_input_convergence_w :
    ((0 : ℝ) < 1/2) ∧ ((1/2 : ℝ) < 1)
    ∧ (Filter.Tendsto (emaLevels (1/2) 0 1) Filter.atTop (nhds 1)
       ∧ ((0 : ℝ) < 1 → StrictMono (emaLevels (1/2) 0 1)
           ∧ ∀ n, emaLevels (1/2) 0 1 n < 1)
       ∧ ((1 : ℝ) < 0 → StrictAnti (emaLevels (1/2) 0 1)
           ∧ ∀ n, (1 : ℝ) < emaLevels (1/2) 0 1 n)
       ∧ ((0 : ℝ) = 1 → ∀ n, emaLevels (1/2) 0 1 n = 1)) :=
  ⟨by norm_num, by norm_num,
    ema_constant_input_convergence (1/2) 1 0 (by norm_num) (by norm_num)⟩

/-- Counterexample for C5 as stated: with starting level already equal
to the constant input (`alpha = 1/2`, `c = 0`, starting level `0`) the
level sequence is constant, so the approach is not strictly monotonic
in either direction. -/
theorem ema_constant_input_convergence_cex :
    emaLevels (1/2) 0 0 1 = emaLevels (1/2) 0 0 0
    ∧ ¬ (StrictMono (emaLevels (1/2) 0 0) ∨ StrictAnti (emaLevels (1/2) 0 0)) := by
  have hconst : emaLevels (1/2) 0 0 1 = emaLevels (1/2) 0 0 0 := by
    rw [emaLevels_closed_form, emaLevels_closed_form]
    norm_num
  refine ⟨hconst, ?_⟩
  rintro (hm | ha)
  · exact absurd (hm (Nat.zero_lt_one)) (by rw [hconst]; exact lt_irrefl _)
  · exact absurd (ha (Nat.zero_lt_one)) (by rw [hconst]; exact lt_irrefl _)

/-! ### Scalar Kalman filter (`Kalman1D` in `predictive_analysis.py`)

`x` is `None` until the first measurement; the first `update` stores the
measurement and resets `p` to `1.0`; later updates run the
predict/update recursion.  The structure is generic in the scalar type:
claim C7 is settled executably over `ℚ`, claim C3 (convergence of the
variance) over `ℝ`. -/

structure Kalman1D (α : Type) where
  q : α
  r : α
  x : Option α
  p : α

/-- A fresh filter with the dataclass defaults `x = None`, `p = 1.0`. -/
def Kalman1D.init {α : Type} [LinearOrderedField α] (q r : α) : Kalman1D α :=
  { q := q, r := r, x := none, p := 1 }

/-- The Kalman gain `k = p_pred / (p_pred + r)` computed by a
post-initialization `update` from state `k` (where `p_pred = p + q`). -/
def Kalman1D.gain {α : Type} [LinearOrderedField α] (k : Kalman1D α) : α :=
  (k.p + k.q) / ((k.p + k.q) + k.r)

/-- `update`: first call stores `z` and sets `p = 1.0`; later calls do
`p += q`, `k = p/(p+r)`, `x += k*(z-x)`, `p = (1-k)*p`.  Returns the new
state and the returned estimate. -/
def Kalman1D.update {α : Type} [LinearOrderedField α] (k : Kalman1D α) (z : α) :
    Kalman1D α × α :=
  match k.x with
  | none => ({ k with x := some z, p := 1 }, z)
  | some x0 =>
    let p1 := k.p + k.q
    let g := p1 / (p1 + k.r)
    let x1 := x0 + g * (z - x0)
    let p2 := (1 - g) * p1
    ({ k with x := some x1, p := p2 }, x1)

/-- Fold `update` over a list of measurements. -/
def Kalman1D.run {α : Type} [LinearOrderedField α] (k : Kalman1D α)
    (zs : List α) : Kalman1D α :=
  zs.foldl (fun s z => (s.update z).1) k

lemma Kalman1D.update_q {α : Type} [LinearOrderedField α] (k : Kalman1D α) (z : α) :
    ((k.update z).1).q = k.q := by
  unfold Kalman1D.update; cases k.x <;> rfl

lemma Kalman1D.update_r {α : Type} [LinearOrderedField α] (k : Kalman1D α) (z : α) :
    ((k.update z).1).r = k.r := by
  unfold Kalman1D.update; cases k.x <;> rfl

lemma Kalman1D.update_x_isSome {α : Type} [LinearOrderedField α]
    (k : Kalman1D α) (z : α) : ((k.update z).1).x.isSome := by
  unfold Kalman1D.update; cases k.x <;> rfl

lemma Kalman1D.update_p_pos {α : Type} [LinearOrderedField α] (k : Kalman1D α)
    (z : α) (hq : 0 < k.q) (hr : 0 < k.r) (hp : 0 < k.p) :
    0 < ((k.update z).1).p := by
  unfold Kalman1D.update
  cases hx : k.x with
  | none => exact one_pos
  | some x0 =>
    dsimp only
    have h1 : 0 < k.p + k.q := by linarith
    have h2 : 0 < (k.p + k.q) + k.r := by linarith
    have hg : (1 : α) - (k.p + k.q) / ((k.p + k.q) + k.r)
        = k.r / ((k.p + k.q) + k.r) := by
      field_simp
    rw [hg]
    exact mul_pos (div_pos hr h2) h1

lemma Kalman1D.run_q {α : Type} [LinearOrderedField α] (k : Kalman1D α)
    (zs : List α) : (k.run zs).q = k.q := by
  induction zs generalizing k with
  | nil => rfl
  | cons z zs ih =>
    rw [Kalman1D.run, List.foldl_cons]
    rw [show (List.foldl (fun s t => (s.update t).1) ((k.update z).1) zs)
        = ((k.update z).1).run zs from rfl, ih]
    exact Kalman1D.update_q k z

lemma Kalman1D.run_r {α : Type} [LinearOrderedField α] (k : Kalman1D α)
    (zs : List α) : (k.run zs).r = k.r := by
  induction zs generalizing k with
  | nil => rfl
  | cons z zs ih =>
    rw [Kalman1D.run, List.foldl_cons]
    rw [show (List.foldl (fun s t => (s.update t).1) ((k.update z).1) zs)
        = ((k.update z).1).run zs from rfl, ih]
    exact Kalman1D.update_r k z

lemma Kalman1D.run_p_pos {α : Type} [LinearOrderedField α] (k : Kalman1D α)
    (zs : List α) (hq : 0 < k.q) (hr : 0 < k.r) (hp : 0 < k.p) :
    0 < (k.run zs).p := by
  induction zs generalizing k with
  | nil => exact hp
  | cons z zs ih =>
    rw [Kalman1D.run, List.foldl_cons]
    exact ih (k.update z).1 (by rw [Kalman1D.update_q]; exact hq)
      (by rw [Kalman1D.update_r]; exact hr)
      (Kalman1D.update_p_pos k z hq hr hp)

lemma Kalman1D.gain_bounds {α : Type} [LinearOrderedField α] (k : Kalman1D α)
    (hq : 0 < k.q) (hr : 0 < k.r) (hp : 0 < k.p) :
    0 ≤ k.gain ∧ k.gain ≤ 1 := by
  unfold Kalman1D.gain
  have h1 : 0 < k.p + k.q := by linarith
  have h2 : 0 < (k.p + k.q) + k.r := by linarith
  constructor
  · exact le_of_lt (div_pos h1 h2)
  · rw [div_le_one h2]
    linarith

lemma Kalman1D.update_p_gain {α : Type} [LinearOrderedField α] (k : Kalman1D α)
    (z x0 : α) (hx : k.x = some x0) :
    ((k.update z).1).p = (1 - k.gain) * (k.p + k.q) := by
  unfold Kalman1D.update Kalman1D.gain
  rw [hx]

/-- Claim C7: for `q > 0`, `r > 0` and every measurement sequence, the
variance `p` stays non-negative (indeed positive) after every update,
and the gain used by the next post-initialization update — which
produces the next `p` via `p = (1-k)*p_pred` — lies in `[0, 1]`. -/
theorem kalman_gain_variance_invariant :
    ∀ (q r : ℚ), 0 < q → 0 < r → ∀ (zs : List ℚ),
      0 ≤ ((Kalman1D.init q r).run zs).p
      ∧ 0 ≤ ((Kalman1D.init q r).run zs).gain
      ∧ ((Kalman1D.init q r).run zs).gain ≤ 1
      ∧ ∀ (z x0 : ℚ), ((Kalman1D.init q r).run zs).x = some x0 →
          (((((Kalman1D.init q r).run zs)).update z).1).p
            = (1 - ((Kalman1D.init q r).run zs).gain)
              * (((Kalman1D.init q r).run zs).p + q) := by
  intro q r hq hr zs
  have hq2 : 0 < ((Kalman1D.init q r).run zs).q := by
    rw [Kalman1D.run_q]; exact hq
  have hr2 : 0 < ((Kalman1D.init q r).run zs).r := by
    rw [Kalman1D.run_r]; exact hr
  have hp : 0 < ((Kalman1D.init q r).run zs).p :=
    Kalman1D.run_p_pos _ zs hq hr one_pos
  obtain ⟨hg0, hg1⟩ := Kalman1D.gain_bounds _ hq2 hr2 hp
  refine ⟨hp.le, hg0, hg1, fun z x0 hx => ?_⟩
  rw [Kalman1D.update_p_gain _ z x0 hx, Kalman1D.run_q]
  rfl

/-- Witness for C7 at `q = r = 1` with measurements `[2, 3]`. -/
theorem kalman_gain_variance_invariant_w :
    ((0 : ℚ) < 1) ∧ ((0 : ℚ) < 1)
    ∧ (0 ≤ ((Kalman1D.init (1 : ℚ) 1).run [2, 3]).p
       ∧ 0 ≤ ((Kalman1D.init (1 : ℚ) 1).run [2, 3]).gain
       ∧ ((Kalman1D.init (1 : ℚ) 1).run [2, 3]).gain ≤ 1
       ∧ ∀ (z x0 : ℚ), ((Kalman1D.init (1 : ℚ) 1).run [2, 3]).x = some x0 →
          (((((Kalman1D.init (1 : ℚ) 1).run [2, 3])).update z).1).p
            = (1 - ((Kalman1D.init (1 : ℚ) 1).run [2, 3]).gain)
              * (((Kalman1D.init (1 : ℚ) 1).run [2, 3]).p + 1)) :=
  ⟨one_pos, one_pos, kalman_gain_variance_invariant 1 1 one_pos one_pos [2, 3]⟩

/-- The variance recursion performed by a post-initialization `update`:
`p1 = p + q`; `g = p1/(p1 + r)`; new `p = (1 - g) * p1`.  (It does not
depend on the measurement or on `x`.)  Generic in the scalar type so it
stays executable over `ℚ`; claim C3 instantiates it at `ℝ`. -/
def kalmanNextP {α : Type} [LinearOrderedField α] (q r p : α) : α :=
  let p1 := p + q
  let g := p1 / (p1 + r)
  (1 - g) * p1

/-- The sequence of variances: `p = 1` after the initializing update,
then one `kalmanNextP` step per further update. -/
def pSeq {α : Type} [LinearOrderedField α] (q r : α) : Nat → α
  | 0 => 1
  | n + 1 => kalmanNextP q r (pSeq q r n)

/-- The steady-state variance `(sqrt(q^2 + 4qr) - q)/2`, the
non-negative root of `p^2 + q p = q r`.  (A limit value the code never
computes, hence the irrational square root and `noncomputable`.) -/
noncomputable def pstar (q r : ℝ) : ℝ := (Real.sqrt (q ^ 2 + 4 * q * r) - q) / 2

lemma Kalman1D.update_p_next (k : Kalman1D ℝ) (z x0 : ℝ) (hx : k.x = some x0) :
    ((k.update z).1).p = kalmanNextP k.q k.r k.p := by
  unfold Kalman1D.update kalmanNextP
  rw [hx]

lemma Kalman1D.run_p_pSeq (q r : ℝ) (zs : List ℝ) :
    ∀ (k : Kalman1D ℝ) (n : Nat), k.q = q → k.r = r → k.x.isSome →
      k.p = pSeq q r n → (k.run zs).p = pSeq q r (n + zs.length) := by
  induction zs with
  | nil => intro k n hkq hkr hkx hkp; simpa using hkp
  | cons z zs ih =>
    intro k n hkq hkr hkx hkp
    obtain ⟨x0, hx0⟩ := Option.isSome_iff_exists.mp hkx
    rw [Kalman1D.run, List.foldl_cons,
      show (List.foldl (fun s t => (s.update t).1) ((k.update z).1) zs)
        = ((k.update z).1).run zs from rfl]
    have hstep : ((k.update z).1).p = pSeq q r (n + 1) := by
      rw [Kalman1D.update_p_next k z x0 hx0, hkq, hkr, hkp]
      rfl
    have := ih (k.update z).1 (n + 1)
      (by rw [Kalman1D.update_q]; exact hkq)
      (by rw [Kalman1D.update_r]; exact hkr)
      (Kalman1D.update_x_isSome k z) hstep
    rw [this]
    congr 1
    simp [List.length_cons]
    omega

lemma kalmanNextP_eq (q r p : ℝ) (hq : 0 < q) (hr : 0 < r) (hp : 0 ≤ p) :
    kalmanNextP q r p = r - r ^ 2 / (p + q + r) := by
  have hden : p + q + r ≠ 0 := ne_of_gt (by linarith)
  unfold kalmanNextP
  dsimp only
  field_simp
  ring

lemma kalmanNextP_pos (q r p : ℝ) (hq : 0 < q) (hr : 0 < r) (hp : 0 ≤ p) :
    0 < kalmanNextP q r p := by
  have h1 : 0 < p + q := by linarith
  have h2 : 0 < (p + q) + r := by linarith
  unfold kalmanNextP
  dsimp only
  have hg : (1 : ℝ) - (p + q) / ((p + q) + r) = r / ((p + q) + r) := by
    field_simp
  rw [hg]
  exact mul_pos (div_pos hr h2) h1

lemma kalmanNextP_mono (q r a b : ℝ) (hq : 0 < q) (hr : 0 < r)
    (ha : 0 ≤ a) (hab : a ≤ b) : kalmanNextP q r a ≤ kalmanNextP q r b := by
  have hb : 0 ≤ b := le_trans ha hab
  rw [kalmanNextP_eq q r a hq hr ha, kalmanNextP_eq q r b hq hr hb]
  have h1 : 0 < a + q + r := by linarith
  have h2 : 0 < b + q + r := by linarith
  have hdiv : r ^ 2 / (b + q + r) ≤ r ^ 2 / (a + q + r) := by
    gcongr <;> linarith
  linarith

lemma kalmanNextP_contract (q r a b : ℝ) (hq : 0 < q) (hr : 0 < r)
    (ha : 0 ≤ a) (hb : 0 ≤ b) :
    |kalmanNextP q r a - kalmanNextP q r b| ≤ (r / (q + r)) ^ 2 * |a - b| := by
  rw [kalmanNextP_eq q r a hq hr ha, kalmanNextP_eq q r b hq hr hb]
  have h1 : 0 < a + q + r := by linarith
  have h2 : 0 < b + q + r := by linarith
  have key : (r - r ^ 2 / (a + q + r)) - (r - r ^ 2 / (b + q + r))
      = r ^ 2 * (a - b) / ((a + q + r) * (b + q + r)) := by
    field_simp
    ring
  rw [key, abs_div, abs_mul, abs_of_pos (mul_pos h1 h2), abs_of_nonneg (sq_nonneg r),
    div_le_iff (mul_pos h1 h2), div_pow, div_mul_eq_mul_div, div_mul_eq_mul_div,
    le_div_iff (by positivity : (0 : ℝ) < (q + r) ^ 2)]
  have hD : (q + r) ^ 2 ≤ (a + q + r) * (b + q + r) := by nlinarith
  nlinarith [mul_nonneg (mul_nonneg (sq_nonneg r) (abs_nonneg (a - b)))
    (sub_nonneg.mpr hD)]

lemma pstar_pos (q r : ℝ) (hq : 0 < q) (hr : 0 < r) : 0 < pstar q r := by
  have hA : (0 : ℝ) ≤ q ^ 2 + 4 * q * r := by positivity
  have hs := Real.sq_sqrt hA
  have hsnn := Real.sqrt_nonneg (q ^ 2 + 4 * q * r)
  unfold pstar
  nlinarith [mul_pos hq hr]

lemma pstar_fix (q r : ℝ) (hq : 0 < q) (hr : 0 < r) :
    pstar q r ^ 2 + q * pstar q r = q * r := by
  have hA : (0 : ℝ) ≤ q ^ 2 + 4 * q * r := by positivity
  have hs := Real.sq_sqrt hA
  unfold pstar
  nlinarith [hs]

lemma kalmanNextP_fixed (q r : ℝ) (hq : 0 < q) (hr : 0 < r) :
    kalmanNextP q r (pstar q r) = pstar q r := by
  have hp := (pstar_pos q r hq hr).le
  rw [kalmanNextP_eq q r (pstar q r) hq hr hp]
  have hden : 0 < pstar q r + q + r := by linarith
  have hfix := pstar_fix q r hq hr
  have hne : pstar q r + q + r ≠ 0 := ne_of_gt hden
  field_simp
  nlinarith [hfix]

lemma pSeq_nonneg (q r : ℝ) (hq : 0 < q) (hr : 0 < r) :
    ∀ n, 0 ≤ pSeq q r n := by
  intro n
  induction n with
  | zero => exact zero_le_one
  | succ n ih => exact (kalmanNextP_pos q r (pSeq q r n) hq hr ih).le

lemma pstar_le_one (q r : ℝ) (hq : 0 < q) (hr : 0 < r)
    (hcond : q * r ≤ 1 + q) : pstar q r ≤ 1 := by
  have hfix := pstar_fix q r hq hr
  have hpos := pstar_pos q r hq hr
  nlinarith [hfix, hpos]

lemma pSeq_ge_pstar (q r : ℝ) (hq : 0 < q) (hr : 0 < r)
    (hcond : q * r ≤ 1 + q) : ∀ n, pstar q r ≤ pSeq q r n := by
  intro n
  induction n with
  | zero => exact pstar_le_one q r hq hr hcond
  | succ n ih =>
    have hstep := kalmanNextP_mono q r (pstar q r) (pSeq q r n) hq hr
      (pstar_pos q r hq hr).le ih
    rw [kalmanNextP_fixed q r hq hr] at hstep
    exact hstep

lemma kalmanNextP_le_self (q r p : ℝ) (hq : 0 < q) (hr : 0 < r)
    (hp : pstar q r ≤ p) : kalmanNextP q r p ≤ p := by
  have hp0 : 0 ≤ p := le_trans (pstar_pos q r hq hr).le hp
  rw [kalmanNextP_eq q r p hq hr hp0]
  have hden : 0 < p + q + r := by linarith
  have hfix := pstar_fix q r hq hr
  have hkey : q * r ≤ p * (p + q) := by
    nlinarith [mul_nonneg (sub_nonneg.mpr hp)
      (le_of_lt (show (0 : ℝ) < p + pstar q r + q by
        nlinarith [pstar_pos q r hq hr]))]
  have h2 : (r - p) * (p + q + r) ≤ r ^ 2 := by nlinarith
  have h3 : r - p ≤ r ^ 2 / (p + q + r) := (le_div_iff hden).mpr h2
  linarith

lemma pSeq_tendsto_pstar (q r : ℝ) (hq : 0 < q) (hr : 0 < r) :
    Filter.Tendsto (pSeq q r) Filter.atTop (nhds (pstar q r)) := by
  have hγ0 : (0 : ℝ) ≤ (r / (q + r)) ^ 2 := sq_nonneg _
  have hγ1 : (r / (q + r)) ^ 2 < 1 := by
    have h1 : r / (q + r) < 1 := (div_lt_one (by linarith)).mpr (by linarith)
    have h0 : 0 ≤ r / (q + r) := by positivity
    nlinarith
  have hbound : ∀ n, |pSeq q r n - pstar q r|
      ≤ ((r / (q + r)) ^ 2) ^ n * |1 - pstar q r| := by
    intro n
    induction n with
    | zero => simp [pSeq]
    | succ n ih =>
      have h1 : pSeq q r (n + 1) - pstar q r
          = kalmanNextP q r (pSeq q r n) - kalmanNextP q r (pstar q r) := by
        rw [kalmanNextP_fixed q r hq hr]
        rfl
      calc |pSeq q r (n + 1) - pstar q r|
          = |kalmanNextP q r (pSeq q r n) - kalmanNextP q r (pstar q r)| := by rw [h1]
        _ ≤ (r / (q + r)) ^ 2 * |pSeq q r n - pstar q r| :=
            kalmanNextP_contract q r _ _ hq hr (pSeq_nonneg q r hq hr n)
              (pstar_pos q r hq hr).le
        _ ≤ (r / (q + r)) ^ 2 * (((r / (q + r)) ^ 2) ^ n * |1 - pstar q r|) :=
            mul_le_mul_of_nonneg_left ih hγ0
        _ = ((r / (q + r)) ^ 2) ^ (n + 1) * |1 - pstar q r| := by ring
  rw [tendsto_iff_dist_tendsto_zero]
  have hg : Filter.Tendsto (fun n : Nat => ((r / (q + r)) ^ 2) ^ n * |1 - pstar q r|)
      Filter.atTop (nhds 0) := by
    have := (tendsto_pow_atTop_nhds_zero_of_lt_one hγ0 hγ1).mul_const |1 - pstar q r|
    rwa [zero_mul] at this
  refine squeeze_zero (fun n => dist_nonneg) (fun n => ?_) hg
  rw [Real.dist_eq]
  exact hbound n

/-- Claim C3 (amended): for `q > 0`, `r > 0` and any measurement
sequence, the variance after the `(n+1)`-st update is `pSeq q r n`
(independent of the measurements); the sequence `pSeq` is non-increasing
from the second update onward provided `q*r ≤ 1 + q` (equivalently, the
fixed point is `≤ 1`, the post-initialization value of `p`) — otherwise
it increases toward the fixed point — and in all cases it converges to
`p* = (sqrt(q^2 + 4qr) - q)/2`. -/
theorem kalman_variance_convergence :
    ∀ (q r : ℝ), 0 < q → 0 < r →
      (∀ (z0 : ℝ) (zs : List ℝ),
          ((Kalman1D.init q r).run (z0 :: zs)).p = pSeq q r zs.length)
      ∧ (q * r ≤ 1 + q → ∀ n, pSeq q r (n + 1) ≤ pSeq q r n)
      ∧ Filter.Tendsto (pSeq q r) Filter.atTop (nhds (pstar q r)) := by
  intro q r hq hr
  refine ⟨fun z0 zs => ?_, fun hcond n => ?_, pSeq_tendsto_pstar q r hq hr⟩
  · have hfold : (Kalman1D.init q r).run (z0 :: zs)
        = (((Kalman1D.init q r).update z0).1).run zs := rfl
    rw [hfold]
    have := Kalman1D.run_p_pSeq q r zs (((Kalman1D.init q r).update z0).1) 0
      rfl rfl (Kalman1D.update_x_isSome _ z0) rfl
    rw [this, Nat.zero_add]
  · have hge := pSeq_ge_pstar q r hq hr hcond n
    exact kalmanNextP_le_self q r (pSeq q r n) hq hr hge

/-- Witness for C3: `q = r = 1` (where `q*r ≤ 1 + q`, so the variance is
non-increasing and converges to `p* = (sqrt 5 - 1)/2`). -/
theorem kalman_variance_convergence_w :
    ((0 : ℝ) < 1) ∧ ((0 : ℝ) < 1)
    ∧ ((∀ (z0 : ℝ) (zs : List ℝ),
          ((Kalman1D.init (1 : ℝ) 1).run (z0 :: zs)).p = pSeq 1 1 zs.length)
       ∧ ((1 : ℝ) * 1 ≤ 1 + 1 → ∀ n, pSeq (1 : ℝ) 1 (n + 1) ≤ pSeq (1 : ℝ) 1 n)
       ∧ Filter.Tendsto (pSeq (1 : ℝ) 1) Filter.atTop (nhds (pstar 1 1))) :=
  ⟨one_pos, one_pos, kalman_variance_convergence 1 1 one_pos one_pos⟩

/-- Counterexample for C3 as stated: with `q = 1`, `r = 10` the variance
strictly increases after initialization (`1`, then `5/3`, then `40/19`,
climbing toward the fixed point `(sqrt 41 - 1)/2 ≈ 2.7`), so it is not
non-increasing from the second update onward. -/
theorem kalman_variance_monotone_cex :
    pSeq (1 : ℝ) 10 0 = 1 ∧ pSeq (1 : ℝ) 10 1 = 5/3 ∧ pSeq (1 : ℝ) 10 2 = 40/19
    ∧ ¬ (pSeq (1 : ℝ) 10 1 ≤ pSeq (1 : ℝ) 10 0)
    ∧ ¬ (pSeq (1 : ℝ) 10 2 ≤ pSeq (1 : ℝ) 10 1) := by
  have e0 : pSeq (1 : ℝ) 10 0 = 1 := rfl
  have e1 : pSeq (1 : ℝ) 10 1 = kalmanNextP 1 10 (pSeq (1 : ℝ) 10 0) := rfl
  have e2 : pSeq (1 : ℝ) 10 2 = kalmanNextP 1 10 (pSeq (1 : ℝ) 10 1) := rfl
  have v1 : pSeq (1 : ℝ) 10 1 = 5/3 := by
    rw [e1, e0]
    norm_num [kalmanNextP]
  have v2 : pSeq (1 : ℝ) 10 2 = 40/19 := by
    rw [e2, v1]
    norm_num [kalmanNextP]
  refine ⟨e0, v1, v2, ?_, ?_⟩
  · rw [v1, e0]
    norm_num
  · rw [v2, v1]
    norm_num
